import Mathlib

set_option maxRecDepth 8000

/-!
Shallow embedding of the treetop process-tree viewer.

Sources embedded directly: src/search_pattern.rs (`SearchPattern`),
src/process.rs (`Process`, `Match`, `Visible`, `SortBy`), src/utils.rs
(`style_spans`, `style_spans_single`, `split_span`), src/treetop_app.rs
(`TreetopApp`, `UiMode`, `update`, `update_processes`, `tick`).

The repository's `tree` module (`Forest`), its `regex` wrapper and the
`tui_app` driver are not under src/; where needed they are modelled from the
spec, with a doc comment starting `Modelled from the spec:`.

Text is modelled as a list of characters (`Str`); the Rust code works on UTF-8
strings and byte offsets, which coincide with character offsets on the ASCII
data all concrete claims use.
-/

/-- Text: a list of characters standing for a Rust string. -/
abbrev Str := List Char

/-- A byte range `start..stop`, mirroring Rust's `Range<usize>` (its second
field is called `end` in Rust, a reserved word in Lean). -/
structure ByteRange where
  start : Nat
  stop : Nat
  deriving DecidableEq, Repr

/-- Modelled from the spec: a compiled regular expression (the repository's
regex engine is not under src/). It carries the source text it was compiled
from together with an anchored matcher: `matchAt s i` returns the end offset
of a match of the expression starting at offset `i` of `s`, if any. -/
structure Regex where
  source : Str
  matchAt : Str → Nat → Option Nat

/-- Modelled from the spec: leftmost-first search of the missing regex engine
(spec 4.1: "the first leftmost match, if any"). Tries `fuel` start offsets
`i, i+1, ...` in order and stops at the first hit. -/
def Regex.findFuel (r : Regex) (s : Str) (i : Nat) : Nat → Option ByteRange
  | 0 => none
  | fuel + 1 =>
    match r.matchAt s i with
    | some e => some ⟨i, e⟩
    | none => r.findFuel s (i + 1) fuel

/-- Modelled from the spec: `Regex::find`, the first (leftmost) match, trying
every start offset `0, 1, ..., s.length`. -/
def Regex.find (r : Regex) (s : Str) : Option ByteRange :=
  r.findFuel s 0 (s.length + 1)

/-- Modelled from the spec: regex compilation, abstracted as a function that
either yields a matcher or fails; the compiled value stores the text it was
built from (the regex API's `as_str` returns the original pattern text). -/
def Regex.new (compileFn : Str → Option (Str → Nat → Option Nat)) (s : Str) :
    Option Regex :=
  (compileFn s).map fun m => { source := s, matchAt := m }

/-- Modelled from the spec: the matcher of a literal (metacharacter-free)
pattern, which matches exactly its own character sequence; used to build the
concrete scenarios. -/
def literalMatcher (pat : Str) : Str → Nat → Option Nat :=
  fun s i => if (s.drop i).take pat.length = pat then some (i + pat.length) else none

/-- Modelled from the spec: a compilation function under which every pattern
compiles, to its literal matcher. -/
def literalCompile : Str → Option (Str → Nat → Option Nat) :=
  fun pat => some (literalMatcher pat)

/-- A compilation function under which no pattern compiles. -/
def failCompile : Str → Option (Str → Nat → Option Nat) :=
  fun _ => none

/-- `SearchPattern` from src/search_pattern.rs: empty / compiled / invalid. -/
inductive SearchPattern where
  | Empty
  | Regex (regex : Regex)
  | Invalid (regex : Str)

/-- src/search_pattern.rs, `SearchPattern::from_string`. -/
def SearchPattern.from_string (compileFn : Str → Option (Str → Nat → Option Nat))
    (regex : Str) : SearchPattern :=
  if regex.isEmpty then .Empty
  else
    match Regex.new compileFn regex with
    | some r => .Regex r
    | none => .Invalid regex

/-- src/search_pattern.rs, `SearchPattern::find`. -/
def SearchPattern.find : SearchPattern → Str → Option ByteRange
  | .Empty, _ => none
  | .Regex r, s => r.find s
  | .Invalid _, _ => none

/-- src/search_pattern.rs, `SearchPattern::as_str`. -/
def SearchPattern.as_str : SearchPattern → Str
  | .Empty => []
  | .Regex r => r.source
  | .Invalid t => t

/-- src/search_pattern.rs, `SearchPattern::modify`: apply a text transform to
the current textual representation (Rust mutates a `String` in place, modelled
as `Str → Str`) and recompile by the `from_string` rule. -/
def SearchPattern.modify (compileFn : Str → Option (Str → Nat → Option Nat))
    (f : Str → Str) (p : SearchPattern) : SearchPattern :=
  let regex := f p.as_str
  if regex.isEmpty then .Empty
  else
    match Regex.new compileFn regex with
    | some r => .Regex r
    | none => .Invalid regex

/-- `Match` from src/process.rs: a tagged byte range. -/
inductive Match where
  | InPid (range : ByteRange)
  | InCommand (range : ByteRange)
  deriving DecidableEq, Repr

/-- `Visible` from src/process.rs: the match state of a record. An empty
pattern yields `Visible []` ("not searching"); a searching pattern yields
`NotVisible` (hidden) or `Visible ranges`. -/
inductive Visible where
  | Visible (items : List Match)
  | NotVisible
  deriving DecidableEq, Repr

/-- CPU usage, `f32` in Rust; modelled as `Option ℚ` where `none` stands for
NaN, the one case in which `f32::partial_cmp` returns `None`. -/
abbrev CpuValue := Option ℚ

/-- Three-way comparison on naturals (Rust `Ord::cmp` on pids and `u64`). -/
def natCmp (a b : Nat) : Ordering :=
  if a < b then .lt else if b < a then .gt else .eq

/-- Three-way comparison on rationals. -/
def ratCmp (a b : ℚ) : Ordering :=
  if a < b then .lt else if b < a then .gt else .eq

/-- Rust `f32::partial_cmp` on the CPU model: `None` iff either side is NaN. -/
def cpuCmp : CpuValue → CpuValue → Option Ordering
  | some x, some y => some (ratCmp x y)
  | _, _ => none

/-- `SortBy` from src/process.rs. -/
inductive SortBy where
  | Pid
  | Cpu
  | Ram
  deriving DecidableEq, Repr

/-- src/process.rs, `SortBy::next`. -/
def SortBy.next : SortBy → SortBy
  | .Pid => .Cpu
  | .Cpu => .Ram
  | .Ram => .Pid

/-- `Process` from src/process.rs (the fields used by the core; rendering-only
data is omitted). -/
structure Process where
  pid : Nat
  name : Str
  arguments : List Str
  parent : Option Nat
  cpu : CpuValue
  ram : Nat
  visible : Visible
  deriving DecidableEq, Repr

/-- `Args` from src/main.rs (the optional initial pattern text is consumed
before the app model starts and is omitted here). -/
structure Args where
  dont_hide_self : Bool
  deriving DecidableEq, Repr

/-- src/process.rs, `Process::compare`. The `Pid` and `Ram` comparisons are
total (`partial_cmp` on integers never returns `None`); `Cpu` uses
`f32::partial_cmp`, which is `None` on NaN. Ties and incomparable values fall
back to ascending pid. -/
def Process.compare (self other : Process) (sort_by : SortBy) : Ordering :=
  let ordering : Option Ordering :=
    match sort_by with
    | .Pid => some (natCmp self.pid other.pid)
    | .Cpu => cpuCmp other.cpu self.cpu
    | .Ram => some (natCmp other.ram self.ram)
  match ordering with
  | some .eq | none => natCmp self.pid other.pid
  | some o => o

/-- Decimal rendering of a pid (Rust `self.id().to_string()`). -/
def natToStr (n : Nat) : Str := (Nat.repr n).data

/-- The command subject built in `Process::get_matches`: the display name
followed by each argument, space-joined (`command += " "; command += arg`). -/
def Process.commandString (self : Process) : Str :=
  self.arguments.foldl (fun cmd argument => cmd ++ [' '] ++ argument) self.name

/-- src/process.rs, `Process::get_matches`: search the decimal pid text
(matches tagged `InPid`) and the command string (matches tagged `InCommand`),
discarding a command match when the record is treetop itself, self-hiding is
on (`!args.dont_hide_self`), and the match reaches past the name. -/
def Process.get_matches (self : Process) (pattern : SearchPattern)
    (treetop_pid : Nat) (args : Args) : List Match :=
  let pidResult : List Match :=
    match pattern.find (natToStr self.pid) with
    | some range => [.InPid range]
    | none => []
  let commandResult : List Match :=
    match pattern.find self.commandString with
    | some range =>
      if treetop_pid = self.pid ∧ args.dont_hide_self = false ∧ self.name.length < range.stop
      then [] -- hide treetop
      else [.InCommand range]
    | none => []
  pidResult ++ commandResult

/-- src/process.rs, `Process::update_visible` (the ambient
`std::process::id()` is passed explicitly as `treetop_pid`); returns the new
value of the `visible` field. -/
def Process.update_visible (self : Process) (pattern : SearchPattern)
    (treetop_pid : Nat) (args : Args) : Visible :=
  match pattern with
  | .Empty => .Visible []
  | _ =>
    let found := self.get_matches pattern treetop_pid args
    if found.isEmpty then .NotVisible else .Visible found

/-- Modelled from the spec: `Process::is_match`, the per-node filter predicate
used by the app (the module version of src/process.rs defining it is not under
src/); spec 4.4: "is this node's match state visible, or pattern empty". -/
def Process.is_match (self : Process) (pattern : SearchPattern)
    (treetop_pid : Nat) (args : Args) : Bool :=
  match pattern with
  | .Empty => true
  | _ => !(self.get_matches pattern treetop_pid args).isEmpty

/-- A styled text run, ratatui's `Span`, with the style type left abstract. -/
structure Span (σ : Type) where
  content : Str
  style : σ
  deriving DecidableEq, Repr

/-- ratatui's `Span::patch_style`: merge an extra style into the run's style,
with the merge operation `patch` abstract. -/
def Span.patchStyle {σ : Type} (patch : σ → σ → σ) (s : Span σ) (style : σ) : Span σ :=
  { s with style := patch s.style style }

/-- src/utils.rs, `split_span`: cut a run at the range's offsets, both clamped
to the run's length (Rust slices `content[..start]`, `content[start..end]`,
`content[end..]`; faithful for `start ≤ stop`, the well-formedness every Rust
`Range` in this program satisfies). -/
def split_span {σ : Type} (s : Span σ) (r : ByteRange) : Span σ × Span σ × Span σ :=
  let start := min r.start s.content.length
  let stop := min r.stop s.content.length
  (⟨s.content.take start, s.style⟩,
   ⟨(s.content.take stop).drop start, s.style⟩,
   ⟨s.content.drop stop, s.style⟩)

/-- src/utils.rs, `style_spans_single`: one pass over the runs for one range:
split each run at the range, restyle the middle piece, drop empty pieces, and
shift the range down by the run's length (`saturating_sub`, i.e. truncated
subtraction). -/
def style_spans_single {σ : Type} (patch : σ → σ → σ) :
    List (Span σ) → ByteRange → σ → List (Span σ)
  | [], _, _ => []
  | s :: rest, range, style =>
    let len := s.content.length
    let (a, b, c) := split_span s range
    ([a, b.patchStyle patch style, c].filter fun t => !t.content.isEmpty)
      ++ style_spans_single patch rest ⟨range.start - len, range.stop - len⟩ style

/-- src/utils.rs, `style_spans`: apply the ranges sequentially, each pass
running on the runs produced by the previous one. -/
def style_spans {σ : Type} (patch : σ → σ → σ) (spans : List (Span σ))
    (ranges : List ByteRange) (style : σ) : List (Span σ) :=
  ranges.foldl (fun spans range => style_spans_single patch spans range style) spans

/-- Concatenated content of a run sequence. -/
def contentOf {σ : Type} : List (Span σ) → Str
  | [] => []
  | s :: rest => s.content ++ contentOf rest

/-- Total content length of a run sequence. -/
def totalLen {σ : Type} (spans : List (Span σ)) : Nat := (contentOf spans).length

/-- Iterated merging with the highlight style: `b` is obtained from `a` by
patching the highlight style on top zero or more times. -/
def iterPatch {σ : Type} (patch : σ → σ → σ) (style : σ) : Nat → σ → σ
  | 0, a => a
  | n + 1, a => patch (iterPatch patch style n a) style

/-- `b` carries `a` merged with the highlight style (possibly repeatedly),
never a discarded `a`. -/
def MergedFrom {σ : Type} (patch : σ → σ → σ) (style : σ) (a b : σ) : Prop :=
  ∃ n, b = iterPatch patch style n a

/-- `pieces` is a cut of the single run `s`: same concatenated content, every
piece's style obtained from `s`'s style by merging in the highlight style. -/
def SpanPieces {σ : Type} (patch : σ → σ → σ) (style : σ) (s : Span σ)
    (pieces : List (Span σ)) : Prop :=
  contentOf pieces = s.content ∧ ∀ t ∈ pieces, MergedFrom patch style s.style t.style

/-- The output run list refines the input run list: each input run was cut, in
place and in order, into pieces whose styles only ever merged in the highlight
style. This captures "total content and original relative styling order are
preserved; pre-existing styles are never discarded, only merged". -/
inductive Refines {σ : Type} (patch : σ → σ → σ) (style : σ) :
    List (Span σ) → List (Span σ) → Prop where
  | nil : Refines patch style [] []
  | cons (pieces : List (Span σ)) (s : Span σ) (out inp : List (Span σ)) :
      SpanPieces patch style s pieces → Refines patch style out inp →
      Refines patch style (pieces ++ out) (s :: inp)

/-- Modelled from the spec: a node of the missing `tree` module's `Forest`
(spec 3): a process record together with its ordered children. -/
inductive PTree where
  | node (process : Process) (children : List PTree)

/-- The record stored at a tree's root. -/
def PTree.root : PTree → Process
  | .node p _ => p

mutual

/-- Modelled from the spec: pre-order flattening of one tree (spec 4.4,
`flatten_with_prefixes` / `iter_all`, with the drawing glyphs dropped). -/
def PTree.toList : PTree → List Process
  | .node p children => p :: forestToList children

/-- Modelled from the spec: pre-order flattening of a forest. -/
def forestToList : List PTree → List Process
  | [] => []
  | t :: ts => t.toList ++ forestToList ts

end

/-- Modelled from the spec: walk of the parent chain during `build`
(spec 4.4/9): `true` iff the chain from `r` revisits an identity. Fuel bounds
the walk; running out of fuel means the chain is longer than the record count,
which forces a revisit. -/
def chainCycles (records : List Process) (visited : List Nat) (fuel : Nat)
    (r : Process) : Bool :=
  match fuel with
  | 0 => true
  | fuel + 1 =>
    match r.parent with
    | none => false
    | some parentId =>
      if visited.contains parentId then true
      else
        match records.find? (fun q => q.pid == parentId) with
        | none => false
        | some parentRec => chainCycles records (parentId :: visited) fuel parentRec

/-- Modelled from the spec: the root test of `build` (spec 4.4): a record is a
root iff it has no parent, or its parent is absent from the set, or its parent
chain revisits an identity (cycle break, spec 3/9). -/
def isRoot (records : List Process) (r : Process) : Bool :=
  match r.parent with
  | none => true
  | some parentId =>
    if (records.find? (fun q => q.pid == parentId)).isNone then true
    else chainCycles records [r.pid] records.length r

/-- Modelled from the spec: child attachment of `build` (spec 4.4): the
children of identity `id` are the records whose parent field is `id` and that
are not already on the current ancestor path (cycle break); recursion depth is
bounded by the record count. -/
def buildChildren (records : List Process) (visited : List Nat) (fuel : Nat)
    (id : Nat) : List PTree :=
  match fuel with
  | 0 => []
  | fuel + 1 =>
    (records.filter fun r => r.parent == some id && !(visited.contains r.pid)).map
      fun r => .node r (buildChildren records (r.pid :: visited) fuel r.pid)

/-- Modelled from the spec: `Forest::new_forest` (spec 4.4 `build`): the roots
are the records with no attachable parent, each with its child subtree, in
input order. -/
def newForest (records : List Process) : List PTree :=
  (records.filter (isRoot records)).map
    fun r => .node r (buildChildren records [r.pid] records.length r.pid)

/-- Stable insertion into a list ordered by `le`. -/
def insertBy {α : Type} (le : α → α → Bool) (a : α) : List α → List α
  | [] => [a]
  | b :: rest => if le a b then a :: b :: rest else b :: insertBy le a rest

/-- Stable insertion sort by `le`. -/
def sortListBy {α : Type} (le : α → α → Bool) : List α → List α
  | [] => []
  | a :: rest => insertBy le a (sortListBy le rest)

mutual

/-- Modelled from the spec: `Forest::sort_by` on one tree (spec 4.4 `sort`):
recursively reorder every child list, leaving the shape unchanged. -/
def PTree.sortBy (cmp : Process → Process → Ordering) : PTree → PTree
  | .node p children => .node p (forestSortBy cmp children)

/-- Modelled from the spec: `Forest::sort_by`: sort the root list and,
recursively, every child list by the comparator. -/
def forestSortBy (cmp : Process → Process → Ordering) : List PTree → List PTree
  | [] => []
  | t :: ts => insertBy (fun a b => cmp a.root b.root ≠ .gt) (t.sortBy cmp) (forestSortBy cmp ts)

end

mutual

/-- Modelled from the spec: `Forest::filter` on one node (spec 4.4): a node
satisfying the predicate keeps its whole subtree (descendants of matches are
retained); otherwise it survives exactly when some descendant survives
(ancestors of matches are retained), keeping the surviving children. -/
def PTree.filterTree (pred : Process → Bool) : PTree → Option PTree
  | .node p children =>
    if pred p then some (.node p children)
    else
      match forestFilter pred children with
      | [] => none
      | kept => some (.node p kept)

/-- Modelled from the spec: `Forest::filter` over the root list. -/
def forestFilter (pred : Process → Bool) : List PTree → List PTree
  | [] => []
  | t :: ts =>
    match t.filterTree pred with
    | some t2 => t2 :: forestFilter pred ts
    | none => forestFilter pred ts

end

/-- `UiMode` from src/treetop_app.rs. -/
inductive UiMode where
  | Normal
  | EditingPattern
  | ProcessSelected (pid : Nat)
  deriving DecidableEq, Repr

/-- Whether the mode is `EditingPattern` or `ProcessSelected` (the escape
arm's pattern). -/
def UiMode.isEditingOrSelected : UiMode → Bool
  | .EditingPattern => true
  | .ProcessSelected _ => true
  | .Normal => false

/-- Key modifiers (crossterm), collapsed to the cases the dispatch reads. -/
inductive KeyModifiers where
  | NONE
  | CONTROL
  | OTHER
  deriving DecidableEq, Repr

/-- Key codes (crossterm), collapsed to the cases the dispatch reads. -/
inductive KeyCode where
  | Char (c : Char)
  | Up
  | Down
  | PageUp
  | PageDown
  | Enter
  | Esc
  | Backspace
  | Tab
  | OTHER
  deriving DecidableEq, Repr

/-- A keyboard event. -/
structure KeyEvent where
  modifiers : KeyModifiers
  code : KeyCode
  deriving DecidableEq, Repr

/-- `UpdateResult` of the tui driver. -/
inductive UpdateResult where
  | Exit
  | Continue
  deriving DecidableEq, Repr

/-- The two signals the app can send. -/
inductive Signal where
  | SIGTERM
  | SIGKILL
  deriving DecidableEq, Repr

/-- Outcome of the external `kill` call (spec 6, signal sender). -/
inductive KillResult where
  | ok
  | eperm
  | otherError (errno : Nat)
  deriving DecidableEq, Repr

/-- A fatal error propagating out of `update` (the `?` operators in the signal
arm): a non-EPERM errno, or a pid that does not fit an `i32`. -/
inductive FatalError where
  | errno (e : Nat)
  | intoConversion
  deriving DecidableEq, Repr

/-- ratatui `ListState`, reduced to the selection cursor. -/
structure ListState where
  selected : Option Nat
  deriving DecidableEq, Repr

/-- `TreetopApp` from src/treetop_app.rs. The process watcher is modelled by
passing each fresh record collection to `update`/`tick` directly; the pattern
field uses `SearchPattern` (src/search_pattern.rs), the in-src counterpart of
the missing `regex::Regex` wrapper with the same `modify`/`as_str` API. -/
structure TreetopApp where
  args : Args
  forest : List PTree
  pattern : SearchPattern
  list_state : ListState
  ui_mode : UiMode
  sort_column : SortBy
  error_state : Option Str

/-- The transient message set on a permission failure. -/
def epermMessage : Str := "missing permissions to send signal".data

/-- src/treetop_app.rs, `TreetopApp::update_processes`: rebuild the forest
from the fresh records, sort by the current key, filter by the pattern's
visibility predicate, and revert a selection whose pid is gone (the ambient
`std::process::id()` is passed as `self_pid`). -/
def TreetopApp.update_processes (app : TreetopApp) (self_pid : Nat)
    (records : List Process) : TreetopApp :=
  let forest := newForest records
  let forest := forestSortBy (fun a b => Process.compare a b app.sort_column) forest
  let forest := forestFilter (fun p => p.is_match app.pattern self_pid app.args) forest
  let ui_mode :=
    match app.ui_mode with
    | .ProcessSelected selected =>
      if (forestToList forest).any (fun n => n.pid == selected) then
        .ProcessSelected selected
      else .Normal
    | m => m
  { app with forest := forest, ui_mode := ui_mode }

/-- src/treetop_app.rs, `TreetopApp::update` (the `TuiApp` impl): clear the
transient error, dispatch the key down the arms in source order (the first
matching arm fires), then — except on quit — rebuild via `update_processes`.
External pieces are parameters: `compileFn` (regex compilation), `records`
(the fresh snapshot read by `update_processes`), `self_pid`, and `kill` (OS
signal delivery). On success it returns the driver result, the new state, and
the signal request issued, if any; a non-EPERM delivery failure (or a pid
that does not fit an `i32`) is a fatal error. -/
def TreetopApp.update (app : TreetopApp)
    (compileFn : Str → Option (Str → Nat → Option Nat))
    (records : List Process) (self_pid : Nat)
    (kill : Nat → Signal → KillResult) (event : KeyEvent) :
    Except FatalError (UpdateResult × TreetopApp × Option (Nat × Signal)) :=
  let app := { app with error_state := none }
  let m := event.modifiers
  let c := event.code
  if (m = .CONTROL ∧ c = .Char 'c') ∨ (m = .NONE ∧ app.ui_mode = .Normal ∧ c = .Char 'q') then
    .ok (.Exit, app, none)
  else
    let step : Except FatalError (TreetopApp × Option (Nat × Signal)) :=
      if m = .NONE ∧ c = .Up then
        .ok ({ app with list_state := ⟨some (app.list_state.selected.getD 0 - 1)⟩ }, none)
      else if m = .NONE ∧ c = .PageUp then
        .ok ({ app with list_state := ⟨some (app.list_state.selected.getD 0 - 20)⟩ }, none)
      else if m = .NONE ∧ c = .Down then
        .ok ({ app with list_state := ⟨some (app.list_state.selected.getD 0 + 1)⟩ }, none)
      else if m = .NONE ∧ c = .PageDown then
        .ok ({ app with list_state := ⟨some (app.list_state.selected.getD 0 + 20)⟩ }, none)
      else if m = .NONE ∧ app.ui_mode = .EditingPattern ∧ c = .Enter then
        .ok ({ app with ui_mode := .Normal }, none)
      else if m = .NONE ∧ c = .Enter then
        .ok (match app.list_state.selected with
          | some selected =>
            match (forestToList app.forest)[selected]? with
            | some process => { app with ui_mode := .ProcessSelected process.pid }
            | none => app
          | none => app, none)
      else if m = .NONE ∧ c = .Char '/' then
        .ok ({ app with ui_mode := .EditingPattern }, none)
      else if m = .NONE ∧ c = .Tab then
        .ok ({ app with sort_column := app.sort_column.next }, none)
      else if m = .NONE ∧ app.ui_mode.isEditingOrSelected = true ∧ c = .Esc then
        .ok ({ app with ui_mode := .Normal }, none)
      else
        match m, app.ui_mode, c with
        | .NONE, .EditingPattern, .Char key =>
          if key.toNat ≤ 127 then
            .ok ({ app with pattern := app.pattern.modify compileFn (fun t => t ++ [key]) }, none)
          else
            .ok (app, none)
        | .NONE, .EditingPattern, .Backspace =>
          .ok ({ app with pattern := app.pattern.modify compileFn List.dropLast }, none)
        | .NONE, .ProcessSelected pid, .Char key =>
          if key = 't' ∨ key = 'k' then
            if pid < 2 ^ 31 then
              let signal := if key = 't' then Signal.SIGTERM else Signal.SIGKILL
              match kill pid signal with
              | .ok => .ok (app, some (pid, signal))
              | .eperm => .ok ({ app with error_state := some epermMessage }, some (pid, signal))
              | .otherError e => .error (.errno e)
            else .error .intoConversion
          else .ok (app, none)
        | _, _, _ => .ok (app, none)
    match step with
    | .error e => .error e
    | .ok (app, sent) => .ok (.Continue, app.update_processes self_pid records, sent)

/-- src/treetop_app.rs, `TreetopApp::tick`: refresh the watcher (modelled by
the fresh `records`) and rebuild. -/
def TreetopApp.tick (app : TreetopApp) (self_pid : Nat) (records : List Process) :
    TreetopApp :=
  app.update_processes self_pid records

/-- The self-hide scenario record (spec 8): treetop's own process, name
`treetop`, arguments `["foo"]`, identity 42. -/
def treetopProc : Process :=
  { pid := 42
    name := "treetop".data
    arguments := ["foo".data]
    parent := none
    cpu := some 0
    ram := 0
    visible := .Visible [] }

/-- A compiled literal pattern. -/
def literalPattern (pat : Str) : SearchPattern :=
  .Regex { source := pat, matchAt := literalMatcher pat }

/-- A minimal app state for concrete scenarios. -/
def blankApp (mode : UiMode) (pattern : SearchPattern) : TreetopApp :=
  { args := ⟨false⟩
    forest := []
    pattern := pattern
    list_state := ⟨some 0⟩
    ui_mode := mode
    sort_column := .Pid
    error_state := none }

/-- The pid-subject loop of `Process::get_matches`, as a function of the find
result: at most one `InPid` match. -/
def pidMatchList (o : Option ByteRange) : List Match :=
  match o with
  | some range => [.InPid range]
  | none => []

/-- The command-subject loop of `Process::get_matches`, as a function of the
find result: at most one `InCommand` match, discarded under the self-hide
condition. -/
def commandMatchList (p : Process) (tp : Nat) (args : Args) (o : Option ByteRange) :
    List Match :=
  match o with
  | some range =>
    if tp = p.pid ∧ args.dont_hide_self = false ∧ p.name.length < range.stop
    then [] else [.InCommand range]
  | none => []

/-- The trailing match of `Process::compare`, as a function. -/
def compareFallback (o : Option Ordering) (p q : Nat) : Ordering :=
  match o with
  | some .eq | none => natCmp p q
  | some o => o

/-- Concrete record: pid 1, CPU 2 percent. -/
def procCpuA : Process := { treetopProc with pid := 1, cpu := some 2 }

/-- Concrete record: pid 5, CPU 3 percent. -/
def procCpuB : Process := { treetopProc with pid := 5, cpu := some 3 }

/-- Concrete record: pid 1, NaN CPU. -/
def procCpuNan : Process := { treetopProc with pid := 1, cpu := none }

/-! ### Helper lemmas: leftmost-match search -/

theorem Regex.findFuel_some_iff (r : Regex) (s : Str) :
    ∀ (fuel i a b : Nat), (r.findFuel s i fuel = some ⟨a, b⟩ ↔
      (i ≤ a ∧ a < i + fuel ∧ r.matchAt s a = some b ∧
        ∀ j, i ≤ j → j < a → r.matchAt s j = none)) := by
  intro fuel
  induction fuel with
  | zero =>
    intro i a b
    constructor
    · intro h
      simp [Regex.findFuel] at h
    · rintro ⟨h1, h2, -⟩
      omega
  | succ fuel ih =>
    intro i a b
    rw [Regex.findFuel]
    cases h : r.matchAt s i with
    | some e =>
      simp only [Option.some.injEq, ByteRange.mk.injEq]
      constructor
      · rintro ⟨rfl, rfl⟩
        exact ⟨le_refl _, by omega, h, fun j h1 h2 => absurd h1 (by omega)⟩
      · rintro ⟨h1, -, hm, hnone⟩
        rcases Nat.eq_or_lt_of_le h1 with rfl | hlt
        · rw [h] at hm
          exact ⟨rfl, (Option.some.injEq _ _).mp hm⟩
        · rw [hnone i (le_refl _) hlt] at h
          exact absurd h (by simp)
    | none =>
      rw [ih (i + 1) a b]
      constructor
      · rintro ⟨h1, h2, hm, hnone⟩
        refine ⟨by omega, by omega, hm, fun j hj1 hj2 => ?_⟩
        rcases Nat.eq_or_lt_of_le hj1 with rfl | hlt
        · exact h
        · exact hnone j hlt hj2
      · rintro ⟨h1, h2, hm, hnone⟩
        have hia : i ≠ a := by
          rintro rfl
          rw [h] at hm
          exact absurd hm (by simp)
        exact ⟨by omega, by omega, hm, fun j hj1 hj2 => hnone j (by omega) hj2⟩

theorem Regex.findFuel_none_iff (r : Regex) (s : Str) :
    ∀ (fuel i : Nat), (r.findFuel s i fuel = none ↔
      ∀ j, i ≤ j → j < i + fuel → r.matchAt s j = none) := by
  intro fuel
  induction fuel with
  | zero =>
    intro i
    simp [Regex.findFuel]
    omega
  | succ fuel ih =>
    intro i
    rw [Regex.findFuel]
    cases h : r.matchAt s i with
    | some e =>
      simp only [iff_false_intro (by simp : ¬(some (⟨i, e⟩ : ByteRange) = none)), false_iff]
      intro hall
      rw [hall i (le_refl _) (by omega)] at h
      exact absurd h (by simp)
    | none =>
      rw [ih (i + 1)]
      constructor
      · intro hall j hj1 hj2
        rcases Nat.eq_or_lt_of_le hj1 with rfl | hlt
        · exact h
        · exact hall j hlt (by omega)
      · intro hall j hj1 hj2
        exact hall j (by omega) (by omega)

theorem Regex.find_some_iff (r : Regex) (s : Str) (a b : Nat) :
    r.find s = some ⟨a, b⟩ ↔
      (a ≤ s.length ∧ r.matchAt s a = some b ∧ ∀ j < a, r.matchAt s j = none) := by
  rw [Regex.find, Regex.findFuel_some_iff]
  constructor
  · rintro ⟨-, h2, hm, hnone⟩
    exact ⟨by omega, hm, fun j hj => hnone j (by omega) hj⟩
  · rintro ⟨h1, hm, hnone⟩
    exact ⟨by omega, by omega, hm, fun j _ hj => hnone j hj⟩

theorem Regex.find_none_iff (r : Regex) (s : Str) :
    r.find s = none ↔ ∀ j ≤ s.length, r.matchAt s j = none := by
  rw [Regex.find, Regex.findFuel_none_iff]
  constructor
  · intro hall j hj
    exact hall j (by omega) (by omega)
  · intro hall j _ hj
    exact hall j (by omega)

/-! ### Helper lemmas: pattern construction -/

theorem SearchPattern.modify_eq_from_string
    (compileFn : Str → Option (Str → Nat → Option Nat)) (f : Str → Str)
    (p : SearchPattern) :
    p.modify compileFn f = SearchPattern.from_string compileFn (f p.as_str) := by
  rfl

theorem SearchPattern.from_string_empty_iff
    (compileFn : Str → Option (Str → Nat → Option Nat)) (s : Str) :
    SearchPattern.from_string compileFn s = .Empty ↔ s = [] := by
  cases s with
  | nil => simp [SearchPattern.from_string]
  | cons c cs =>
    rw [SearchPattern.from_string]
    cases h : Regex.new compileFn (c :: cs) <;> simp [List.isEmpty, h]

/-! ### Helper lemmas: orderings -/

theorem natCmp_eq_eq_iff (a b : Nat) : natCmp a b = .eq ↔ a = b := by
  unfold natCmp
  rcases Nat.lt_trichotomy a b with h | h | h
  · simp [h]
    omega
  · simp [h, Nat.lt_irrefl]
  · simp [Nat.lt_asymm h, h]
    omega

theorem natCmp_swap (a b : Nat) : natCmp b a = (natCmp a b).swap := by
  unfold natCmp
  rcases Nat.lt_trichotomy a b with h | h | h
  · simp [h, Nat.lt_asymm h, Ordering.swap]
  · simp [h, Nat.lt_irrefl, Ordering.swap]
  · simp [h, Nat.lt_asymm h, Ordering.swap]

theorem ratCmp_eq_eq_iff (x y : ℚ) : ratCmp x y = .eq ↔ x = y := by
  unfold ratCmp
  rcases lt_trichotomy x y with h | h | h
  · simp [h, ne_of_lt h]
  · simp [h, lt_irrefl]
  · simp [lt_asymm h, h, ne_of_gt h]

theorem ratCmp_swap (x y : ℚ) : ratCmp y x = (ratCmp x y).swap := by
  unfold ratCmp
  rcases lt_trichotomy x y with h | h | h
  · simp [h, lt_asymm h, Ordering.swap]
  · simp [h, lt_irrefl, Ordering.swap]
  · simp [h, lt_asymm h, Ordering.swap]

/-! ### Claim C4 -/

/-- C4: for every haystack, `find` yields no match in the `Empty` and
`Invalid` states; in the `Compiled` state it yields exactly the byte range of
the regular expression's first (leftmost) match — a result `[a, b)` means the
expression matches at `a` and at no earlier offset, and `none` means it
matches at no offset of the haystack. -/
theorem claim_C4 (s : Str) :
    SearchPattern.find .Empty s = none ∧
    (∀ t, SearchPattern.find (.Invalid t) s = none) ∧
    (∀ r : Regex,
      (∀ a b, SearchPattern.find (.Regex r) s = some ⟨a, b⟩ ↔
        (a ≤ s.length ∧ r.matchAt s a = some b ∧ ∀ j < a, r.matchAt s j = none)) ∧
      (SearchPattern.find (.Regex r) s = none ↔ ∀ j ≤ s.length, r.matchAt s j = none)) := by
  refine ⟨rfl, fun t => rfl, fun r => ⟨fun a b => ?_, ?_⟩⟩
  · exact Regex.find_some_iff r s a b
  · exact Regex.find_none_iff r s

/-- Witness for C4 at a concrete compiled literal pattern: `b` first matches
`abb` at byte 1. -/
theorem claim_C4_witness :
    SearchPattern.find (literalPattern ['b']) ['a', 'b', 'b'] = some ⟨1, 2⟩ :=
  (((claim_C4 ['a', 'b', 'b']).2.2 { source := ['b'], matchAt := literalMatcher ['b'] }).1 1 2).mpr
    ⟨by decide, by decide, by decide⟩

/-! ### Claim C5 -/

/-- C5: pattern construction is total: `from_string` classifies every text as
`Empty` (empty text), `Invalid` carrying the text (non-empty, fails to
compile), or `Regex` (compiles); and `modify` applies the transform to the
current text and re-classifies by the very same rule, so the result is
`Empty` exactly when the transformed text is empty. -/
theorem claim_C5 (compileFn : Str → Option (Str → Nat → Option Nat)) (s : Str)
    (f : Str → Str) (p : SearchPattern) :
    (s = [] → SearchPattern.from_string compileFn s = .Empty) ∧
    (s ≠ [] → compileFn s = none → SearchPattern.from_string compileFn s = .Invalid s) ∧
    (∀ m, s ≠ [] → compileFn s = some m →
      SearchPattern.from_string compileFn s = .Regex { source := s, matchAt := m }) ∧
    (p.modify compileFn f = SearchPattern.from_string compileFn (f p.as_str)) ∧
    (p.modify compileFn f = .Empty ↔ f p.as_str = []) := by
  refine ⟨?_, ?_, ?_, SearchPattern.modify_eq_from_string compileFn f p, ?_⟩
  · rintro rfl
    rfl
  · intro hne hc
    rw [SearchPattern.from_string, Regex.new, hc]
    simp [List.isEmpty_iff, hne]
  · intro m hne hc
    rw [SearchPattern.from_string, Regex.new, hc]
    simp [List.isEmpty_iff, hne]
  · rw [SearchPattern.modify_eq_from_string]
    exact SearchPattern.from_string_empty_iff compileFn (f p.as_str)

/-- Witness for C5 at concrete inputs: a non-empty text compiles under the
literal compiler, and appending a character to the empty pattern recompiles
the one-character text. -/
theorem claim_C5_witness :
    SearchPattern.from_string literalCompile ['a']
        = .Regex { source := ['a'], matchAt := literalMatcher ['a'] } ∧
    SearchPattern.modify literalCompile (fun t => t ++ ['a']) .Empty
        = SearchPattern.from_string literalCompile (SearchPattern.as_str .Empty ++ ['a']) ∧
    ¬(SearchPattern.modify literalCompile (fun t => t ++ ['a']) .Empty = .Empty) := by
  refine ⟨?_, ?_, ?_⟩
  · exact (claim_C5 literalCompile ['a'] id .Empty).2.2.1 (literalMatcher ['a'])
      (by decide) rfl
  · exact (claim_C5 literalCompile ['a'] (fun t => t ++ ['a']) .Empty).2.2.2.1
  · intro h
    exact absurd (((claim_C5 literalCompile ['a'] (fun t => t ++ ['a']) .Empty).2.2.2.2).mp h)
      (by decide)

/-! ### Claim C10 -/

/-- C10: reading back the textual representation of a pattern constructed from
`s` returns `s` exactly, in all three states: `Empty` reads back as the empty
text, `Regex` as the compiled expression's source text, `Invalid` as the
stored raw text — construction followed by `as_str` is the identity. -/
theorem claim_C10 (compileFn : Str → Option (Str → Nat → Option Nat)) (s : Str) :
    (SearchPattern.from_string compileFn s).as_str = s ∧
    SearchPattern.as_str .Empty = [] ∧
    (∀ r : Regex, (SearchPattern.Regex r).as_str = r.source) ∧
    (∀ t, (SearchPattern.Invalid t).as_str = t) := by
  refine ⟨?_, rfl, fun r => rfl, fun t => rfl⟩
  rw [SearchPattern.from_string]
  rcases hs : s.isEmpty with - | -
  · rw [Regex.new]
    cases hc : compileFn s <;> simp [SearchPattern.as_str]
  · rw [List.isEmpty_iff] at hs
    simp [hs, SearchPattern.as_str]

/-! ### Claim C6 -/

theorem cpuCmp_none_left (c : CpuValue) : cpuCmp none c = none := by
  cases c <;> rfl

theorem cpuCmp_none_right (c : CpuValue) : cpuCmp c none = none := by
  cases c <;> rfl

theorem Process.compare_pid (a b : Process) :
    Process.compare a b .Pid = compareFallback (some (natCmp a.pid b.pid)) a.pid b.pid := rfl

theorem Process.compare_cpu (a b : Process) :
    Process.compare a b .Cpu = compareFallback (cpuCmp b.cpu a.cpu) a.pid b.pid := rfl

theorem Process.compare_ram (a b : Process) :
    Process.compare a b .Ram = compareFallback (some (natCmp b.ram a.ram)) a.pid b.pid := rfl

theorem compareFallback_none (p q : Nat) : compareFallback none p q = natCmp p q := rfl

theorem compareFallback_eq (p q : Nat) :
    compareFallback (some .eq) p q = natCmp p q := rfl

theorem compareFallback_lt (p q : Nat) : compareFallback (some .lt) p q = .lt := rfl

theorem compareFallback_gt (p q : Nat) : compareFallback (some .gt) p q = .gt := rfl

/-- `partial_cmp` on the CPU model is antisymmetric under swapping. -/
theorem cpuCmp_swap (c d : CpuValue) : cpuCmp d c = (cpuCmp c d).map Ordering.swap := by
  cases c with
  | none => cases d <;> rfl
  | some x =>
    cases d with
    | none => rfl
    | some y =>
      show some (ratCmp y x) = some ((ratCmp x y).swap)
      rw [ratCmp_swap x y]

/-- C6: `compare` orders by pid ascending under the `Pid` key, by CPU
descending under the `Cpu` key, by memory descending under the `Ram` key;
whenever the selected key does not strictly order the two records (equal
values, or an incomparable NaN CPU value), the result is the ascending pid
comparison; and on records with distinct pids the induced order is total and
deterministic (never `eq`, and antisymmetric under swapping the operands). -/
theorem claim_C6 (a b : Process) :
    (Process.compare a b .Pid = natCmp a.pid b.pid) ∧
    (∀ x y, a.cpu = some x → b.cpu = some y → ratCmp y x ≠ .eq →
      Process.compare a b .Cpu = ratCmp y x) ∧
    (cpuCmp b.cpu a.cpu = none ∨ cpuCmp b.cpu a.cpu = some .eq →
      Process.compare a b .Cpu = natCmp a.pid b.pid) ∧
    (b.ram ≠ a.ram → Process.compare a b .Ram = natCmp b.ram a.ram) ∧
    (b.ram = a.ram → Process.compare a b .Ram = natCmp a.pid b.pid) ∧
    (a.pid ≠ b.pid → ∀ k, Process.compare a b k ≠ .eq ∧
      Process.compare b a k = (Process.compare a b k).swap) := by
  refine ⟨?_, ?_, ?_, ?_, ?_, ?_⟩
  · rw [Process.compare_pid]
    rcases h : natCmp a.pid b.pid with - | - | -
    · exact compareFallback_lt _ _
    · rw [compareFallback_eq]
      exact h
    · exact compareFallback_gt _ _
  · intro x y hx hy hne
    rw [Process.compare_cpu, hx, hy]
    rw [show cpuCmp (some y) (some x) = some (ratCmp y x) from rfl]
    rcases h : ratCmp y x with - | - | -
    · exact compareFallback_lt _ _
    · exact absurd h hne
    · exact compareFallback_gt _ _
  · intro h
    rw [Process.compare_cpu]
    rcases h with h | h <;> rw [h] <;> rfl
  · intro hne
    rw [Process.compare_ram]
    have hneq : natCmp b.ram a.ram ≠ .eq := fun h => hne ((natCmp_eq_eq_iff _ _).mp h)
    rcases h : natCmp b.ram a.ram with - | - | -
    · exact compareFallback_lt _ _
    · exact absurd h hneq
    · exact compareFallback_gt _ _
  · intro heq
    rw [Process.compare_ram, (natCmp_eq_eq_iff b.ram a.ram).mpr heq, compareFallback_eq]
  · intro hne k
    have hswap : natCmp b.pid a.pid = (natCmp a.pid b.pid).swap := natCmp_swap a.pid b.pid
    have hneq : natCmp a.pid b.pid ≠ .eq := fun h => hne ((natCmp_eq_eq_iff _ _).mp h)
    cases k
    · rw [Process.compare_pid a b, Process.compare_pid b a]
      rcases h : natCmp a.pid b.pid with - | - | -
      · rw [compareFallback_lt, hswap, h, show Ordering.lt.swap = Ordering.gt from rfl,
          compareFallback_gt]
        exact ⟨by decide, rfl⟩
      · exact absurd h hneq
      · rw [compareFallback_gt, hswap, h, show Ordering.gt.swap = Ordering.lt from rfl,
          compareFallback_lt]
        exact ⟨by decide, rfl⟩
    · rw [Process.compare_cpu a b, Process.compare_cpu b a, cpuCmp_swap b.cpu a.cpu]
      rcases hc : cpuCmp b.cpu a.cpu with - | o
      · rw [show (Option.map Ordering.swap none : Option Ordering) = none from rfl,
          compareFallback_none, compareFallback_none, hswap]
        exact ⟨hneq, rfl⟩
      · rw [show (some o).map Ordering.swap = some o.swap from rfl]
        cases o
        · rw [compareFallback_lt, show Ordering.lt.swap = Ordering.gt from rfl,
            compareFallback_gt]
          exact ⟨by decide, rfl⟩
        · rw [compareFallback_eq, show Ordering.eq.swap = Ordering.eq from rfl,
            compareFallback_eq, hswap]
          exact ⟨hneq, rfl⟩
        · rw [compareFallback_gt, show Ordering.gt.swap = Ordering.lt from rfl,
            compareFallback_lt]
          exact ⟨by decide, rfl⟩
    · rw [Process.compare_ram a b, Process.compare_ram b a,
        show natCmp a.ram b.ram = (natCmp b.ram a.ram).swap from natCmp_swap b.ram a.ram]
      rcases h : natCmp b.ram a.ram with - | - | -
      · rw [compareFallback_lt, show Ordering.lt.swap = Ordering.gt from rfl,
          compareFallback_gt]
        exact ⟨by decide, rfl⟩
      · rw [compareFallback_eq, show Ordering.eq.swap = Ordering.eq from rfl,
          compareFallback_eq, hswap]
        exact ⟨hneq, rfl⟩
      · rw [compareFallback_gt, show Ordering.gt.swap = Ordering.lt from rfl,
          compareFallback_lt]
        exact ⟨by decide, rfl⟩

/-- Witness for C6 at concrete records: CPU-descending comparison, the pid
fallback on a NaN CPU value, and pid-ascending comparison. -/
theorem claim_C6_witness :
    Process.compare procCpuA procCpuB .Cpu = .gt ∧
    Process.compare procCpuNan procCpuB .Cpu = .lt ∧
    Process.compare procCpuA procCpuB .Pid = .lt := by
  refine ⟨?_, ?_, ?_⟩
  · rw [(claim_C6 procCpuA procCpuB).2.1 2 3 rfl rfl (by decide)]
    decide
  · rw [(claim_C6 procCpuNan procCpuB).2.2.1 (Or.inl (by rfl))]
    decide
  · rw [(claim_C6 procCpuA procCpuB).1]
    decide

/-! ### Claim C1 -/

/-- C1: with a non-empty (searching) pattern, the match computation searches
the decimal pid text (the match, if any, tagged `InPid`) and the space-joined
command string (tagged `InCommand`); a command match is discarded if and only
if the record is the current process, `dont_hide_self` is off, and the match's
end offset reaches strictly past the display name; the record is hidden
(`NotVisible`) exactly when the resulting match list is empty and visible with
those matches otherwise. In particular, for treetop's own record with name
`treetop` and arguments `["foo"]`: pattern `foo` with `dont_hide_self = false`
hides the record; pattern `treetop` keeps it visible with a command range
covering the name; pattern `foo` with `dont_hide_self = true` keeps it
visible. -/
theorem Process.get_matches_eq (p : Process) (pattern : SearchPattern) (tp : Nat)
    (args : Args) :
    p.get_matches pattern tp args =
      pidMatchList (pattern.find (natToStr p.pid))
        ++ commandMatchList p tp args (pattern.find p.commandString) := rfl

theorem claim_C1 (p : Process) (pattern : SearchPattern) (tp : Nat) (args : Args)
    (hne : pattern ≠ .Empty) :
    (p.update_visible pattern tp args = .NotVisible ↔ p.get_matches pattern tp args = []) ∧
    (p.get_matches pattern tp args ≠ [] →
      p.update_visible pattern tp args = .Visible (p.get_matches pattern tp args)) ∧
    (∀ r, Match.InPid r ∈ p.get_matches pattern tp args ↔
      pattern.find (natToStr p.pid) = some r) ∧
    (∀ r, Match.InCommand r ∈ p.get_matches pattern tp args ↔
      (pattern.find p.commandString = some r ∧
        ¬(tp = p.pid ∧ args.dont_hide_self = false ∧ p.name.length < r.stop))) ∧
    treetopProc.update_visible (literalPattern "foo".data) 42 ⟨false⟩ = .NotVisible ∧
    treetopProc.update_visible (literalPattern "treetop".data) 42 ⟨false⟩
      = .Visible [.InCommand ⟨0, 7⟩] ∧
    treetopProc.update_visible (literalPattern "foo".data) 42 ⟨true⟩
      = .Visible [.InCommand ⟨8, 11⟩] := by
  have hv : p.update_visible pattern tp args =
      (if (p.get_matches pattern tp args).isEmpty then .NotVisible
       else .Visible (p.get_matches pattern tp args)) := by
    cases pattern with
    | Empty => exact absurd rfl hne
    | Regex r => rfl
    | Invalid t => rfl
  refine ⟨?_, ?_, ?_, ?_, by decide, by decide, by decide⟩
  · rw [hv]
    rcases h : p.get_matches pattern tp args with - | ⟨mtch, rest⟩ <;> simp
  · intro hne2
    have h3 : ¬((p.get_matches pattern tp args).isEmpty = true) := by
      rw [List.isEmpty_iff]
      exact hne2
    rw [hv, if_neg h3]
  · intro r
    rw [Process.get_matches_eq]
    rcases hf : pattern.find (natToStr p.pid) with - | q <;>
      rcases hc : pattern.find p.commandString with - | q2 <;>
      rw [pidMatchList, commandMatchList]
    · simp
    · by_cases hcond : tp = p.pid ∧ args.dont_hide_self = false ∧ p.name.length < q2.stop
      · rw [if_pos hcond]
        simp
      · rw [if_neg hcond]
        simp
    · constructor
      · intro h
        simp only [List.append_nil, List.mem_singleton, Match.InPid.injEq] at h
        rw [h]
      · intro h
        rw [Option.some.injEq] at h
        rw [h]
        simp
    · by_cases hcond : tp = p.pid ∧ args.dont_hide_self = false ∧ p.name.length < q2.stop
      · rw [if_pos hcond]
        constructor
        · intro h
          simp only [List.append_nil, List.mem_singleton, Match.InPid.injEq] at h
          rw [h]
        · intro h
          rw [Option.some.injEq] at h
          rw [h]
          simp
      · rw [if_neg hcond]
        constructor
        · intro h
          simp only [List.mem_append, List.mem_singleton, Match.InPid.injEq,
            reduceCtorEq, or_false] at h
          rw [h]
        · intro h
          rw [Option.some.injEq] at h
          rw [h]
          simp
  · intro r
    rw [Process.get_matches_eq]
    rcases hf : pattern.find (natToStr p.pid) with - | q <;>
      rcases hc : pattern.find p.commandString with - | q2 <;>
      rw [pidMatchList, commandMatchList]
    · simp
    · by_cases hcond : tp = p.pid ∧ args.dont_hide_self = false ∧ p.name.length < q2.stop
      · rw [if_pos hcond]
        simp only [List.nil_append, List.not_mem_nil, false_iff, not_and]
        rintro hq
        rw [Option.some.injEq] at hq
        subst hq
        exact fun hnot => hnot hcond.1 hcond.2.1 hcond.2.2
      · rw [if_neg hcond]
        simp only [List.nil_append, List.mem_singleton, Match.InCommand.injEq,
          Option.some.injEq]
        constructor
        · rintro rfl
          exact ⟨rfl, hcond⟩
        · rintro ⟨rfl, -⟩
          rfl
    · simp
    · by_cases hcond : tp = p.pid ∧ args.dont_hide_self = false ∧ p.name.length < q2.stop
      · rw [if_pos hcond]
        simp only [List.append_nil, List.mem_singleton, reduceCtorEq, false_iff, not_and]
        rintro hq
        rw [Option.some.injEq] at hq
        subst hq
        exact fun hnot => hnot hcond.1 hcond.2.1 hcond.2.2
      · rw [if_neg hcond]
        simp only [List.mem_append, List.mem_singleton, Match.InCommand.injEq,
          Option.some.injEq, reduceCtorEq, false_or]
        constructor
        · rintro rfl
          exact ⟨rfl, hcond⟩
        · rintro ⟨rfl, -⟩
          rfl

/-- Witness for C1: the self-hide scenario conjunct, extracted by applying the
theorem at treetop's own record with a compiled non-empty pattern. -/
theorem claim_C1_witness :
    treetopProc.update_visible (literalPattern "foo".data) 42 ⟨false⟩ = .NotVisible :=
  (claim_C1 treetopProc (literalPattern "foo".data) 42 ⟨false⟩
    (fun h => SearchPattern.noConfusion h)).2.2.2.2.1

/-! ### Helper lemmas: the highlight engine -/

theorem contentOf_append {σ : Type} (l1 l2 : List (Span σ)) :
    contentOf (l1 ++ l2) = contentOf l1 ++ contentOf l2 := by
  induction l1 with
  | nil => rfl
  | cons s rest ih => simp [contentOf, ih]

theorem contentOf_filter_nonempty {σ : Type} (l : List (Span σ)) :
    contentOf (l.filter fun t => !t.content.isEmpty) = contentOf l := by
  induction l with
  | nil => rfl
  | cons s rest ih =>
    rw [List.filter_cons]
    rcases hs : s.content with - | ⟨c, cs⟩
    · simp only [List.isEmpty_nil, Bool.not_true, Bool.false_eq_true, if_false]
      rw [ih, contentOf, hs, List.nil_append]
    · simp only [List.isEmpty_cons, Bool.not_false, if_true]
      rw [contentOf, contentOf, ih]

theorem totalLen_cons {σ : Type} (s : Span σ) (rest : List (Span σ)) :
    totalLen (s :: rest) = s.content.length + totalLen rest := by
  simp [totalLen, contentOf, List.length_append]

theorem iterPatch_add {σ : Type} (patch : σ → σ → σ) (style : σ) (n m : Nat) (a : σ) :
    iterPatch patch style (n + m) a = iterPatch patch style n (iterPatch patch style m a) := by
  induction n with
  | zero => simp [iterPatch]
  | succ n ih => rw [Nat.succ_add, iterPatch, iterPatch, ih]

theorem MergedFrom.self {σ : Type} (patch : σ → σ → σ) (style : σ) (a : σ) :
    MergedFrom patch style a a := ⟨0, Eq.refl a⟩

theorem MergedFrom.once {σ : Type} (patch : σ → σ → σ) (style : σ) (a : σ) :
    MergedFrom patch style a (patch a style) := ⟨1, Eq.refl _⟩

theorem MergedFrom.chain {σ : Type} {patch : σ → σ → σ} {style : σ} {a b c : σ} :
    MergedFrom patch style a b → MergedFrom patch style b c → MergedFrom patch style a c := by
  rintro ⟨n, rfl⟩ ⟨m, rfl⟩
  exact ⟨m + n, (iterPatch_add patch style m n a).symm⟩

theorem Refines.contentOf_eq {σ : Type} {patch : σ → σ → σ} {style : σ}
    {out inp : List (Span σ)} (h : Refines patch style out inp) :
    contentOf out = contentOf inp := by
  induction h with
  | nil => rfl
  | cons pieces s out inp hp hr ih =>
    rw [contentOf_append, ih, hp.1]
    rfl

theorem Refines.ofSelf {σ : Type} (patch : σ → σ → σ) (style : σ) (l : List (Span σ)) :
    Refines patch style l l := by
  induction l with
  | nil => exact .nil
  | cons s rest ih =>
    have : Refines patch style ([s] ++ rest) (s :: rest) :=
      .cons [s] s rest rest
        ⟨by simp [contentOf], by
          intro t ht
          rw [List.mem_singleton] at ht
          subst ht
          exact MergedFrom.self patch style t.style⟩ ih
    simpa using this

theorem Refines.append_split {σ : Type} {patch : σ → σ → σ} {style : σ} :
    ∀ {l1 l2 out : List (Span σ)}, Refines patch style out (l1 ++ l2) →
      ∃ o1 o2, out = o1 ++ o2 ∧ Refines patch style o1 l1 ∧ Refines patch style o2 l2 := by
  intro l1
  induction l1 with
  | nil =>
    intro l2 out h
    exact ⟨[], out, rfl, .nil, h⟩
  | cons s rest ih =>
    intro l2 out h
    cases h with
    | cons pieces _ out2 _ hp hr =>
      obtain ⟨o1, o2, rfl, h1, h2⟩ := ih hr
      exact ⟨pieces ++ o1, o2, by rw [List.append_assoc], .cons pieces s o1 rest hp h1, h2⟩

theorem Refines.mem_merged {σ : Type} {patch : σ → σ → σ} {style : σ}
    {out inp : List (Span σ)} (h : Refines patch style out inp) :
    ∀ t ∈ out, ∃ u ∈ inp, MergedFrom patch style u.style t.style := by
  induction h with
  | nil => intro t ht; exact absurd ht (List.not_mem_nil t)
  | cons pieces s out inp hp hr ih =>
    intro t ht
    rw [List.mem_append] at ht
    rcases ht with ht | ht
    · exact ⟨s, List.mem_cons_self s inp, hp.2 t ht⟩
    · obtain ⟨u, hu, hm⟩ := ih t ht
      exact ⟨u, List.mem_cons_of_mem s hu, hm⟩

theorem Refines.through {σ : Type} {patch : σ → σ → σ} {style : σ} :
    ∀ {out mid inp : List (Span σ)}, Refines patch style out mid →
      Refines patch style mid inp → Refines patch style out inp := by
  intro out mid inp h1 h2
  induction h2 generalizing out with
  | nil =>
    cases h1
    exact .nil
  | cons pieces s mid2 inp2 hp hr ih =>
    obtain ⟨o1, o2, rfl, ho1, ho2⟩ := Refines.append_split h1
    refine .cons o1 s o2 inp2 ⟨?_, ?_⟩ (ih ho2)
    · rw [Refines.contentOf_eq ho1, hp.1]
    · intro t ht
      obtain ⟨u, hu, hm⟩ := Refines.mem_merged ho1 t ht
      exact MergedFrom.chain (hp.2 u hu) hm

theorem style_spans_single_cons {σ : Type} (patch : σ → σ → σ) (s : Span σ)
    (rest : List (Span σ)) (range : ByteRange) (style : σ) :
    style_spans_single patch (s :: rest) range style =
      ([(⟨s.content.take (min range.start s.content.length), s.style⟩ : Span σ),
        ⟨(s.content.take (min range.stop s.content.length)).drop
            (min range.start s.content.length), patch s.style style⟩,
        ⟨s.content.drop (min range.stop s.content.length), s.style⟩].filter
          fun t => !t.content.isEmpty)
        ++ style_spans_single patch rest
            ⟨range.start - s.content.length, range.stop - s.content.length⟩ style := rfl

theorem split_span_content_eq {σ : Type} (s : Span σ) (range : ByteRange)
    (hr : range.start ≤ range.stop) :
    s.content.take (min range.start s.content.length)
      ++ ((s.content.take (min range.stop s.content.length)).drop
            (min range.start s.content.length)
        ++ s.content.drop (min range.stop s.content.length)) = s.content := by
  have h1 : min range.start s.content.length ≤ min range.stop s.content.length :=
    min_le_min hr (le_refl _)
  rw [show s.content.take (min range.start s.content.length)
      = (s.content.take (min range.stop s.content.length)).take
          (min range.start s.content.length) by
    rw [List.take_take, min_eq_left h1]]
  rw [← List.append_assoc, List.take_append_drop, List.take_append_drop]

theorem style_spans_single_refines {σ : Type} (patch : σ → σ → σ) (style : σ) :
    ∀ (spans : List (Span σ)) (range : ByteRange), range.start ≤ range.stop →
      Refines patch style (style_spans_single patch spans range style) spans := by
  intro spans
  induction spans with
  | nil =>
    intro range hr
    exact .nil
  | cons s rest ih =>
    intro range hr
    rw [style_spans_single_cons]
    refine Refines.cons _ s _ rest ⟨?_, ?_⟩
      (ih ⟨range.start - s.content.length, range.stop - s.content.length⟩
        (Nat.sub_le_sub_right hr _))
    · rw [contentOf_filter_nonempty]
      show _ ++ (_ ++ (_ ++ [])) = s.content
      rw [List.append_nil]
      exact split_span_content_eq s range hr
    · intro t ht
      rw [List.mem_filter] at ht
      rcases ht with ⟨ht, -⟩
      simp only [List.mem_cons, List.not_mem_nil, or_false] at ht
      rcases ht with ht | ht | ht
      · rw [ht]
        exact MergedFrom.self patch style s.style
      · rw [ht]
        exact MergedFrom.once patch style s.style
      · rw [ht]
        exact MergedFrom.self patch style s.style

theorem style_spans_refines {σ : Type} (patch : σ → σ → σ) (style : σ)
    (spans : List (Span σ)) :
    ∀ ranges : List ByteRange, (∀ r ∈ ranges, r.start ≤ r.stop) →
      Refines patch style (style_spans patch spans ranges style) spans := by
  intro ranges
  induction ranges generalizing spans with
  | nil =>
    intro hwf
    exact Refines.ofSelf patch style spans
  | cons r rest ih =>
    intro hwf
    show Refines patch style
      (style_spans patch (style_spans_single patch spans r style) rest style) spans
    exact Refines.through
      (ih (style_spans_single patch spans r style)
        (fun q hq => hwf q (List.mem_cons_of_mem r hq)))
      (style_spans_single_refines patch style spans r (hwf r (List.mem_cons_self r rest)))

theorem style_spans_content_eq {σ : Type} (patch : σ → σ → σ) (style : σ)
    (spans : List (Span σ)) (ranges : List ByteRange)
    (hwf : ∀ r ∈ ranges, r.start ≤ r.stop) :
    contentOf (style_spans patch spans ranges style) = contentOf spans :=
  (style_spans_refines patch style spans ranges hwf).contentOf_eq

theorem style_spans_single_cons2 {σ : Type} (patch : σ → σ → σ) (s : Span σ)
    (rest : List (Span σ)) (a e : Nat) (style : σ) :
    style_spans_single patch (s :: rest) ⟨a, e⟩ style =
      ([(⟨s.content.take (min a s.content.length), s.style⟩ : Span σ),
        ⟨(s.content.take (min e s.content.length)).drop (min a s.content.length),
          patch s.style style⟩,
        ⟨s.content.drop (min e s.content.length), s.style⟩].filter
          fun t => !t.content.isEmpty)
        ++ style_spans_single patch rest
            ⟨a - s.content.length, e - s.content.length⟩ style := rfl

theorem style_spans_single_clamp {σ : Type} (patch : σ → σ → σ) (style : σ) :
    ∀ (spans : List (Span σ)) (a e : Nat),
      style_spans_single patch spans ⟨a, min e (totalLen spans)⟩ style
        = style_spans_single patch spans ⟨a, e⟩ style := by
  intro spans
  induction spans with
  | nil => intro a e; rfl
  | cons s rest ih =>
    intro a e
    have hT := totalLen_cons s rest
    have h1 : min (min e (totalLen (s :: rest))) s.content.length
        = min e s.content.length := by
      rw [hT]
      omega
    have h2 : min e (totalLen (s :: rest)) - s.content.length
        = min (e - s.content.length) (totalLen rest) := by
      rw [hT]
      omega
    rw [style_spans_single_cons2, style_spans_single_cons2, h1, h2,
      ih (a - s.content.length) (e - s.content.length)]

theorem style_spans_single_outside {σ : Type} (patch : σ → σ → σ) (style : σ) :
    ∀ (spans : List (Span σ)) (a e : Nat), a ≤ e → totalLen spans ≤ a →
      style_spans_single patch spans ⟨a, e⟩ style
        = spans.filter fun t => !t.content.isEmpty := by
  intro spans
  induction spans with
  | nil => intro a e h1 h2; rfl
  | cons s rest ih =>
    intro a e h1 h2
    rw [totalLen_cons] at h2
    have hlen : s.content.length ≤ a := by omega
    have hstart : min a s.content.length = s.content.length := min_eq_right hlen
    have hstop : min e s.content.length = s.content.length := min_eq_right (by omega)
    rw [style_spans_single_cons2, hstart, hstop, List.take_length, List.drop_length,
      ih (a - s.content.length) (e - s.content.length) (by omega) (by omega)]
    have heta : (⟨s.content, s.style⟩ : Span σ) = s := rfl
    rw [List.filter_cons, List.filter_cons, List.filter_cons, List.filter_nil, heta]
    simp only [List.isEmpty_nil, Bool.not_true, Bool.false_eq_true, if_false]
    rw [List.filter_cons]
    by_cases hc : (!s.content.isEmpty) = true
    · rw [if_pos hc, if_pos hc]
      rfl
    · rw [if_neg hc, if_neg hc]
      rfl

theorem contentOf_map_patch {σ : Type} (patch : σ → σ → σ) (style : σ)
    (l : List (Span σ)) :
    contentOf (l.map fun s => s.patchStyle patch style) = contentOf l := by
  induction l with
  | nil => rfl
  | cons s rest ih =>
    rw [List.map_cons, contentOf, contentOf, ih]
    rfl

theorem style_spans_single_full {σ : Type} (patch : σ → σ → σ) (style : σ) :
    ∀ spans : List (Span σ),
      style_spans_single patch spans ⟨0, totalLen spans⟩ style
        = (spans.filter fun t => !t.content.isEmpty).map
            (fun s => s.patchStyle patch style) := by
  intro spans
  induction spans with
  | nil => rfl
  | cons s rest ih =>
    have h1 : min (0 : Nat) s.content.length = 0 := by omega
    have h2 : min (totalLen (s :: rest)) s.content.length = s.content.length := by
      rw [totalLen_cons]
      omega
    have h3 : (0 : Nat) - s.content.length = 0 := by omega
    have h4 : totalLen (s :: rest) - s.content.length = totalLen rest := by
      rw [totalLen_cons]
      omega
    rw [style_spans_single_cons2, h1, h2, h3, h4, List.take_zero, List.take_length,
      List.drop_zero, List.drop_length, ih]
    have heta : (⟨s.content, patch s.style style⟩ : Span σ) = s.patchStyle patch style := rfl
    rw [List.filter_cons, List.filter_cons, List.filter_cons, List.filter_nil, heta]
    simp only [List.isEmpty_nil, Bool.not_true, Bool.false_eq_true, if_false]
    rw [List.filter_cons]
    by_cases hc : (!s.content.isEmpty) = true
    · have hc2 : (!(s.patchStyle patch style).content.isEmpty) = true := hc
      rw [if_pos hc2, if_pos hc, List.map_cons]
      rfl
    · have hc2 : ¬((!(s.patchStyle patch style).content.isEmpty) = true) := hc
      rw [if_neg hc2, if_neg hc]
      rfl

/-! ### Claim C2 -/

/-- C2 (amended): for well-formed byte ranges (`start ≤ stop`, which every
range produced in this program satisfies; a reversed range would make the
Rust slicing abort), the highlight engine preserves the concatenated content
and refines the input runs in order, never discarding a style, only merging
the highlight style in; a range whose end exceeds the total content length is
clamped to it; and a range lying entirely beyond the content leaves the
non-empty runs unchanged — exactly unchanged when every run is non-empty,
while runs with empty content are dropped by the pass. -/
theorem claim_C2 {σ : Type} (patch : σ → σ → σ) (spans : List (Span σ)) (style : σ) :
    (∀ ranges : List ByteRange, (∀ r ∈ ranges, r.start ≤ r.stop) →
      contentOf (style_spans patch spans ranges style) = contentOf spans) ∧
    (∀ ranges : List ByteRange, (∀ r ∈ ranges, r.start ≤ r.stop) →
      Refines patch style (style_spans patch spans ranges style) spans) ∧
    (∀ a e : Nat, style_spans_single patch spans ⟨a, min e (totalLen spans)⟩ style
      = style_spans_single patch spans ⟨a, e⟩ style) ∧
    (∀ r : ByteRange, r.start ≤ r.stop → totalLen spans ≤ r.start →
      style_spans patch spans [r] style = spans.filter fun t => !t.content.isEmpty) ∧
    (∀ r : ByteRange, r.start ≤ r.stop → totalLen spans ≤ r.start →
      (∀ t ∈ spans, t.content ≠ []) →
      style_spans patch spans [r] style = spans) := by
  refine ⟨?_, ?_, ?_, ?_, ?_⟩
  · intro ranges hwf
    exact style_spans_content_eq patch style spans ranges hwf
  · intro ranges hwf
    exact style_spans_refines patch style spans ranges hwf
  · intro a e
    exact style_spans_single_clamp patch style spans a e
  · intro r h1 h2
    show style_spans_single patch spans r style = _
    obtain ⟨a, e⟩ := r
    exact style_spans_single_outside patch style spans a e h1 h2
  · intro r h1 h2 hall
    show style_spans_single patch spans r style = _
    obtain ⟨a, e⟩ := r
    rw [style_spans_single_outside patch style spans a e h1 h2]
    rw [List.filter_eq_self]
    intro t ht
    have := hall t ht
    cases hb : t.content.isEmpty with
    | true => exact absurd (List.isEmpty_iff.mp hb) this
    | false => rfl

/-- Counterexample for C2 as stated: a run whose content is empty is dropped
by a pass whose range lies entirely beyond the content, so the runs are not
returned unchanged. -/
theorem claim_C2_counterexample :
    style_spans (fun a _ => a) [({ content := [], style := 0 } : Span Nat)] [⟨5, 7⟩] 1
      ≠ [{ content := [], style := 0 }] := by decide

/-- Witness for C2 at concrete runs: content preservation of a highlighting
pass, and the exact no-change result of a fully-outside range on non-empty
runs. -/
theorem claim_C2_witness :
    contentOf (style_spans (fun a b => a + b)
      [({ content := ['x'], style := 3 } : Span Nat)] [⟨0, 1⟩] 5) = ['x'] ∧
    style_spans (fun a b => a + b) [({ content := ['x'], style := 3 } : Span Nat)]
      [⟨9, 12⟩] 5 = [{ content := ['x'], style := 3 }] := by
  constructor
  · rw [(claim_C2 (fun a b => a + b) [({ content := ['x'], style := 3 } : Span Nat)] 5).1
      [⟨0, 1⟩] (by decide)]
    rfl
  · exact (claim_C2 (fun a b => a + b) [({ content := ['x'], style := 3 } : Span Nat)] 5).2.2.2.2
      ⟨9, 12⟩ (by decide) (by decide) (by decide)

/-! ### Claim C9 -/

/-- C9: the highlight engine with an empty range set returns the input runs
unchanged, identical in content and styles; with the single range covering the
whole concatenated content it returns the content unchanged with every
(non-empty) run uniformly carrying the highlight style merged into its
original style — for a single non-empty run, a single run with the merged
style. -/
theorem claim_C9 {σ : Type} (patch : σ → σ → σ) (spans : List (Span σ)) (style : σ) :
    style_spans patch spans [] style = spans ∧
    style_spans patch spans [⟨0, totalLen spans⟩] style
      = (spans.filter fun t => !t.content.isEmpty).map (fun s => s.patchStyle patch style) ∧
    contentOf (style_spans patch spans [⟨0, totalLen spans⟩] style) = contentOf spans ∧
    (∀ s : Span σ, s.content ≠ [] →
      style_spans patch [s] [⟨0, totalLen [s]⟩] style = [s.patchStyle patch style]) := by
  refine ⟨rfl, style_spans_single_full patch style spans, ?_, ?_⟩
  · show contentOf (style_spans_single patch spans ⟨0, totalLen spans⟩ style) = _
    rw [style_spans_single_full, contentOf_map_patch, contentOf_filter_nonempty]
  · intro s hs
    show style_spans_single patch [s] ⟨0, totalLen [s]⟩ style = _
    rw [style_spans_single_full]
    cases hb : s.content.isEmpty with
    | true => exact absurd (List.isEmpty_iff.mp hb) hs
    | false =>
      rw [List.filter_cons, hb]
      rfl

/-- Witness for C9: highlighting the full content of a single styled run
yields the same content with the merged style. -/
theorem claim_C9_witness :
    style_spans (fun a b => a + b) [({ content := ['h', 'i'], style := 2 } : Span Nat)]
      [⟨0, totalLen [({ content := ['h', 'i'], style := 2 } : Span Nat)]⟩] 7
      = [{ content := ['h', 'i'], style := 9 }] :=
  (claim_C9 (fun a b => a + b) [({ content := ['h', 'i'], style := 2 } : Span Nat)] 7).2.2.2
    { content := ['h', 'i'], style := 2 } (by decide)

/-! ### Helper lemmas: the forest -/

theorem forestToList_cons (t : PTree) (ts : List PTree) :
    forestToList (t :: ts) = t.toList ++ forestToList ts := rfl

theorem toList_node (p : Process) (children : List PTree) :
    (PTree.node p children).toList = p :: forestToList children := rfl

theorem mem_forestToList_map {l : List Process} {g : Process → List PTree} {p : Process} :
    p ∈ forestToList (l.map fun r => PTree.node r (g r)) ↔
      ∃ r ∈ l, p = r ∨ p ∈ forestToList (g r) := by
  induction l with
  | nil => simp [forestToList]
  | cons r rest ih =>
    rw [List.map_cons, forestToList_cons, toList_node, List.mem_append, List.mem_cons, ih]
    constructor
    · rintro ((h | h) | ⟨q, hq, h⟩)
      · exact ⟨r, List.mem_cons_self r rest, Or.inl h⟩
      · exact ⟨r, List.mem_cons_self r rest, Or.inr h⟩
      · exact ⟨q, List.mem_cons_of_mem r hq, h⟩
    · rintro ⟨q, hq, h⟩
      rw [List.mem_cons] at hq
      rcases hq with rfl | hq
      · rcases h with h | h
        · exact Or.inl (Or.inl h)
        · exact Or.inl (Or.inr h)
      · exact Or.inr ⟨q, hq, h⟩

theorem mem_buildChildren (records : List Process) :
    ∀ (fuel : Nat) (visited : List Nat) (id : Nat) (p : Process),
      p ∈ forestToList (buildChildren records visited fuel id) → p ∈ records := by
  intro fuel
  induction fuel with
  | zero =>
    intro visited id p h
    exact absurd h (List.not_mem_nil p)
  | succ fuel ih =>
    intro visited id p h
    rw [buildChildren, mem_forestToList_map] at h
    obtain ⟨r, hr, h⟩ := h
    rcases h with rfl | h
    · exact List.mem_of_mem_filter hr
    · exact ih (r.pid :: visited) r.pid p h

theorem mem_newForest {records : List Process} {p : Process} :
    p ∈ forestToList (newForest records) → p ∈ records := by
  intro h
  rw [newForest, mem_forestToList_map] at h
  obtain ⟨r, hr, h⟩ := h
  rcases h with rfl | h
  · exact List.mem_of_mem_filter hr
  · exact mem_buildChildren records records.length [r.pid] r.pid p h

theorem mem_forestToList_insertBy (le : PTree → PTree → Bool) (a : PTree) (p : Process) :
    ∀ l : List PTree,
      (p ∈ forestToList (insertBy le a l) ↔ p ∈ a.toList ∨ p ∈ forestToList l) := by
  intro l
  induction l with
  | nil =>
    rw [insertBy, forestToList_cons]
    simp [forestToList]
  | cons b rest ih =>
    rw [insertBy]
    by_cases h : le a b = true
    · rw [if_pos h]
      simp only [forestToList_cons, List.mem_append]
    · rw [if_neg h]
      simp only [forestToList_cons, List.mem_append, ih]
      tauto

mutual

theorem mem_sortTree (cmp : Process → Process → Ordering) (t : PTree) (p : Process) :
    p ∈ (t.sortBy cmp).toList ↔ p ∈ t.toList := by
  cases t with
  | node q children =>
    rw [PTree.sortBy, toList_node, toList_node, List.mem_cons, List.mem_cons,
      mem_forestSortBy cmp children p]

theorem mem_forestSortBy (cmp : Process → Process → Ordering) (ts : List PTree)
    (p : Process) :
    p ∈ forestToList (forestSortBy cmp ts) ↔ p ∈ forestToList ts := by
  cases ts with
  | nil => exact Iff.rfl
  | cons t rest =>
    rw [forestSortBy, mem_forestToList_insertBy, mem_sortTree cmp t p,
      mem_forestSortBy cmp rest p, forestToList_cons, List.mem_append]

end

mutual

theorem mem_filterTree (pred : Process → Bool) (t t2 : PTree) (p : Process) :
    t.filterTree pred = some t2 → p ∈ t2.toList → p ∈ t.toList := by
  cases t with
  | node q children =>
    intro heq hmem
    rw [PTree.filterTree] at heq
    by_cases hq : pred q = true
    · rw [if_pos hq, Option.some.injEq] at heq
      rw [← heq] at hmem
      exact hmem
    · rw [if_neg hq] at heq
      rcases hfc : forestFilter pred children with - | ⟨k, ks⟩
      · rw [hfc] at heq
        exact absurd heq (by simp)
      · rw [hfc, Option.some.injEq] at heq
        rw [← heq, toList_node, List.mem_cons] at hmem
        rw [toList_node, List.mem_cons]
        rcases hmem with rfl | hmem
        · exact Or.inl rfl
        · rw [← hfc] at hmem
          exact Or.inr (mem_forestFilter pred children p hmem)

theorem mem_forestFilter (pred : Process → Bool) (ts : List PTree) (p : Process) :
    p ∈ forestToList (forestFilter pred ts) → p ∈ forestToList ts := by
  cases ts with
  | nil => exact fun h => h
  | cons t rest =>
    intro h
    rw [forestToList_cons, List.mem_append]
    rw [forestFilter] at h
    rcases hft : t.filterTree pred with - | t2
    · rw [hft] at h
      exact Or.inr (mem_forestFilter pred rest p h)
    · rw [hft, forestToList_cons, List.mem_append] at h
      rcases h with h | h
      · exact Or.inl (mem_filterTree pred t t2 p hft h)
      · exact Or.inr (mem_forestFilter pred rest p h)

end

theorem update_processes_forest (app : TreetopApp) (self_pid : Nat)
    (records : List Process) :
    (app.update_processes self_pid records).forest
      = forestFilter (fun p => p.is_match app.pattern self_pid app.args)
          (forestSortBy (fun a b => Process.compare a b app.sort_column)
            (newForest records)) := rfl

theorem mem_update_processes_forest (app : TreetopApp) (self_pid : Nat)
    (records : List Process) (p : Process) :
    p ∈ forestToList (app.update_processes self_pid records).forest → p ∈ records := by
  intro h
  rw [update_processes_forest] at h
  have h2 := mem_forestFilter _ _ p h
  rw [mem_forestSortBy] at h2
  exact mem_newForest h2

theorem update_processes_ui_mode (app : TreetopApp) (self_pid : Nat)
    (records : List Process) :
    (app.update_processes self_pid records).ui_mode
      = (match app.ui_mode with
         | .ProcessSelected selected =>
           if (forestToList (app.update_processes self_pid records).forest).any
               (fun n => n.pid == selected) then UiMode.ProcessSelected selected
           else .Normal
         | m => m) := rfl

/-! ### Claim C3 -/

theorem update_processes_ui_mode_selected (app : TreetopApp) (self_pid : Nat)
    (records : List Process) (sel : Nat) (h : app.ui_mode = .ProcessSelected sel) :
    (app.update_processes self_pid records).ui_mode
      = (if (forestToList (app.update_processes self_pid records).forest).any
            (fun n => n.pid == sel) then UiMode.ProcessSelected sel else .Normal) := by
  rw [update_processes_ui_mode, h]

theorem update_processes_ui_mode_normal (app : TreetopApp) (self_pid : Nat)
    (records : List Process) (h : app.ui_mode = .Normal) :
    (app.update_processes self_pid records).ui_mode = .Normal := by
  rw [update_processes_ui_mode, h]

theorem update_processes_ui_mode_editing (app : TreetopApp) (self_pid : Nat)
    (records : List Process) (h : app.ui_mode = .EditingPattern) :
    (app.update_processes self_pid records).ui_mode = .EditingPattern := by
  rw [update_processes_ui_mode, h]

/-- C3: after every tick (rebuild the forest from the fresh records, sort it
by the current key, filter it by the pattern's visibility predicate), if the
UI mode is `ProcessSelected pid` then `pid` occurs in the filtered forest;
and selecting an identity and then ticking with a record set that no longer
contains it leaves the application in `Normal` mode. -/
theorem claim_C3 (app : TreetopApp) (self_pid : Nat) (records : List Process) :
    (∀ pid, (app.tick self_pid records).ui_mode = .ProcessSelected pid →
      ∃ p ∈ forestToList (app.tick self_pid records).forest, p.pid = pid) ∧
    (∀ pid, app.ui_mode = .ProcessSelected pid → (∀ p ∈ records, p.pid ≠ pid) →
      (app.tick self_pid records).ui_mode = .Normal) := by
  constructor
  · intro pid h
    rw [show (app.tick self_pid records).ui_mode
        = (app.update_processes self_pid records).ui_mode from rfl] at h
    rcases hmode : app.ui_mode with - | - | sel
    · rw [update_processes_ui_mode_normal app self_pid records hmode] at h
      exact absurd h (by simp)
    · rw [update_processes_ui_mode_editing app self_pid records hmode] at h
      exact absurd h (by simp)
    · rw [update_processes_ui_mode_selected app self_pid records sel hmode] at h
      rcases hany : (forestToList (app.update_processes self_pid records).forest).any
          (fun n => n.pid == sel) with - | -
      · rw [hany] at h
        simp only [Bool.false_eq_true, if_false] at h
        exact absurd h (by simp)
      · rw [hany] at h
        simp only [if_true] at h
        rw [UiMode.ProcessSelected.injEq] at h
        subst h
        rw [List.any_eq_true] at hany
        obtain ⟨n, hn, hpidn⟩ := hany
        rw [beq_iff_eq] at hpidn
        exact ⟨n, hn, hpidn⟩
  · intro pid hmode hnot
    show (app.update_processes self_pid records).ui_mode = .Normal
    rw [update_processes_ui_mode_selected app self_pid records pid hmode]
    rcases hany : (forestToList (app.update_processes self_pid records).forest).any
        (fun n => n.pid == pid) with - | -
    · simp
    · rw [List.any_eq_true] at hany
      obtain ⟨n, hn, hpidn⟩ := hany
      rw [beq_iff_eq] at hpidn
      have hrec := mem_update_processes_forest app self_pid records n hn
      exact absurd hpidn (hnot n hrec)

/-- Witness for C3: an app in `ProcessSelected 2` ticked with a record set
that does not contain identity 2 (only treetop's record, pid 42) reverts to
`Normal`. -/
theorem claim_C3_witness :
    ((blankApp (.ProcessSelected 2) .Empty).tick 1 [treetopProc]).ui_mode = .Normal :=
  (claim_C3 (blankApp (.ProcessSelected 2) .Empty) 1 [treetopProc]).2 2 rfl (by decide)

/-! ### Claim C7 -/

theorem update_processes_set_error (app : TreetopApp) (sp : Nat) (records : List Process)
    (e : Option Str) :
    ({ app with error_state := e } : TreetopApp).update_processes sp records
      = { app.update_processes sp records with error_state := e } := rfl

theorem update_processes_error_state (app : TreetopApp) (sp : Nat)
    (records : List Process) :
    (app.update_processes sp records).error_state = app.error_state := rfl

/-- C7: in `ProcessSelected pid` mode, 't' requests SIGTERM and 'k' requests
SIGKILL delivery to `pid`; a permission-denied outcome is captured as the
transient error message and leaves the state exactly as a successful delivery
would (so the UI mode is not changed by the failure), while any other delivery
failure propagates as a fatal error; the transient message is cleared at the
start of every key press (the previous message never influences the next
update, and an ordinary key press leaves no message). -/
theorem claim_C7 (app : TreetopApp)
    (compileFn : Str → Option (Str → Nat → Option Nat))
    (records : List Process) (self_pid : Nat) (kill : Nat → Signal → KillResult)
    (pid : Nat) (hm : app.ui_mode = .ProcessSelected pid) (hpid : pid < 2 ^ 31) :
    (kill pid .SIGTERM = .ok →
      app.update compileFn records self_pid kill ⟨.NONE, .Char 't'⟩
        = .ok (.Continue,
            ({ app with error_state := none }).update_processes self_pid records,
            some (pid, .SIGTERM))) ∧
    (kill pid .SIGKILL = .ok →
      app.update compileFn records self_pid kill ⟨.NONE, .Char 'k'⟩
        = .ok (.Continue,
            ({ app with error_state := none }).update_processes self_pid records,
            some (pid, .SIGKILL))) ∧
    (∀ key signal, (key = 't' ∧ signal = Signal.SIGTERM) ∨
        (key = 'k' ∧ signal = Signal.SIGKILL) →
      kill pid signal = .eperm →
      app.update compileFn records self_pid kill ⟨.NONE, .Char key⟩
        = .ok (.Continue,
            { ({ app with error_state := none }).update_processes self_pid records with
                error_state := some epermMessage },
            some (pid, signal))) ∧
    (∀ key signal e, (key = 't' ∧ signal = Signal.SIGTERM) ∨
        (key = 'k' ∧ signal = Signal.SIGKILL) →
      kill pid signal = .otherError e →
      app.update compileFn records self_pid kill ⟨.NONE, .Char key⟩
        = .error (.errno e)) ∧
    (∀ e0 event,
      ({ app with error_state := e0 } : TreetopApp).update compileFn records self_pid kill event
        = ({ app with error_state := none } : TreetopApp).update compileFn records self_pid
            kill event) ∧
    ((app.update compileFn records self_pid kill ⟨.NONE, .Up⟩).map
      (fun x => x.2.1.error_state) = .ok none) := by
  refine ⟨?_, ?_, ?_, ?_, ?_, ?_⟩
  · intro hok
    simp only [TreetopApp.update, hm, hpid]
    simp
    rw [hok]
  · intro hok
    simp only [TreetopApp.update, hm, hpid]
    simp
    rw [hok]
  · rintro key signal (⟨rfl, rfl⟩ | ⟨rfl, rfl⟩) hk <;>
      (simp only [TreetopApp.update, hm, hpid]; simp; rw [hk]; rfl)
  · rintro key signal e (⟨rfl, rfl⟩ | ⟨rfl, rfl⟩) hk <;>
      (simp only [TreetopApp.update, hm, hpid]; simp; rw [hk])
  · intro e0 event
    rfl
  · simp only [TreetopApp.update, hm]
    rfl

/-- Witness for C7: with a kill collaborator failing with errno 13, pressing
'k' on a selected process propagates the fatal error. -/
theorem claim_C7_witness :
    (blankApp (.ProcessSelected 9) .Empty).update literalCompile [] 1
        (fun _ _ => .otherError 13) ⟨.NONE, .Char 'k'⟩ = .error (.errno 13) :=
  (claim_C7 (blankApp (.ProcessSelected 9) .Empty) literalCompile [] 1
      (fun _ _ => .otherError 13) 9 rfl (by decide)).2.2.2.1
    'k' .SIGKILL 13 (Or.inr ⟨rfl, rfl⟩) rfl

/-! ### Claim C8 -/

/-- C8 (amended): in `EditingPattern` mode, every printable ASCII character
key press other than `/` (the code guards on `is_ascii`, and the `/` arm of
the dispatch precedes the edit arm, so `/` re-enters edit mode instead)
appends the character to the pattern's text and recompiles, and backspace
removes the last character and recompiles. -/
theorem claim_C8 (app : TreetopApp)
    (compileFn : Str → Option (Str → Nat → Option Nat))
    (records : List Process) (self_pid : Nat) (kill : Nat → Signal → KillResult)
    (hm : app.ui_mode = .EditingPattern) :
    (∀ c : Char, c.toNat ≤ 127 → c ≠ '/' →
      app.update compileFn records self_pid kill ⟨.NONE, .Char c⟩
        = .ok (.Continue,
            ({ { app with error_state := none } with
                pattern := app.pattern.modify compileFn
                  (fun t => t ++ [c]) }).update_processes self_pid records,
            none)) ∧
    (∀ c : Char,
      app.pattern.modify compileFn (fun t => t ++ [c])
        = SearchPattern.from_string compileFn (app.pattern.as_str ++ [c])) ∧
    (app.update compileFn records self_pid kill ⟨.NONE, .Backspace⟩
      = .ok (.Continue,
          ({ { app with error_state := none } with
              pattern := app.pattern.modify compileFn List.dropLast }).update_processes
            self_pid records,
          none)) ∧
    (app.pattern.modify compileFn List.dropLast
      = SearchPattern.from_string compileFn (app.pattern.as_str.dropLast)) := by
  refine ⟨?_, ?_, ?_, ?_⟩
  · intro c hascii hslash
    simp only [TreetopApp.update, hm]
    simp [hslash, hascii]
  · intro c
    exact SearchPattern.modify_eq_from_string compileFn _ app.pattern
  · simp only [TreetopApp.update, hm]
    simp
  · exact SearchPattern.modify_eq_from_string compileFn _ app.pattern

/-- Counterexample for C8 as stated: in `EditingPattern` mode, pressing the
printable character `/` does not append it — the `/` dispatch arm fires first
and the pattern text stays empty instead of becoming `/`. -/
theorem claim_C8_counterexample :
    ((blankApp .EditingPattern .Empty).update failCompile [] 1 (fun _ _ => .ok)
        ⟨.NONE, .Char '/'⟩).map (fun x => x.2.1.pattern.as_str) = .ok [] ∧
    SearchPattern.as_str
        (SearchPattern.from_string failCompile
          ((blankApp .EditingPattern .Empty).pattern.as_str ++ ['/'])) = ['/'] ∧
    ([] : Str) ≠ ['/'] := ⟨rfl, rfl, by decide⟩

/-- Witness for C8: typing 'a' into an empty pattern in edit mode yields the
pattern text `a`. -/
theorem claim_C8_witness :
    ((blankApp .EditingPattern .Empty).update literalCompile [] 1 (fun _ _ => .ok)
        ⟨.NONE, .Char 'a'⟩).map (fun x => x.2.1.pattern.as_str) = .ok ['a'] := by
  rw [(claim_C8 (blankApp .EditingPattern .Empty) literalCompile [] 1 (fun _ _ => .ok)
      rfl).1 'a' (by decide) (by decide)]
  rfl
